import Mathlib

/-!
Verification of the Rayburn-Rangers bait-mention extraction and storage
subsystem.

The definitions below are a shallow embedding of the Python source:

* `backend/scripts/transcribe_extract.py` — `normalize_text`, `make_excerpt`
  and `extract_baits` (the transcript keyword extractor);
* `backend/db.py` — `upsert_video`, `ensure_bait`, `insert_bait_hits`
  (the SQLite storage layer, modelled as a pure state transformer);
* `backend/app.py` — `api_baits_ingest` (the ingest endpoint, with the
  `with connect()` block modelled as commit-on-success / rollback-on-error).

Text is modelled as `List Char` (Python `str`); Python's Unicode-aware
lowercasing and whitespace classes are modelled by their ASCII behaviour,
which is all the claims depend on.  Machine integers do not overflow here
(Python ints are unbounded), so scores are plain `Int`.
-/

/-- The whitespace class used by `re.sub(r"\s+", " ", s)` and `str.strip()`,
restricted to the ASCII whitespace characters. -/
def isPySpace (c : Char) : Bool :=
  c = ' ' || c = '\t' || c = '\n' || c = '\x0d' || c = '\x0b' || c = '\x0c'

/-- One pass of `re.sub(r"\s+", " ", s)`: every maximal run of whitespace
becomes a single space.  The `Bool` argument records whether the previous
character was whitespace (so the run emits only one space). -/
def collapseWS : Bool → List Char → List Char
  | _, [] => []
  | prevSpace, c :: t =>
    if isPySpace c then
      if prevSpace then collapseWS true t else ' ' :: collapseWS true t
    else c :: collapseWS false t

/-- Python `str.strip()`: drop leading and trailing whitespace. -/
def pyStrip (s : List Char) : List Char :=
  ((s.dropWhile isPySpace).reverse.dropWhile isPySpace).reverse

/-- Embedding of `normalize_text` from `transcribe_extract.py`: lowercase, collapse runs
of whitespace to single spaces, trim. -/
def normalize_text (s : List Char) : List Char :=
  pyStrip (collapseWS false (s.map Char.toLower))

/-- Auxiliary scanner for Python `str.count`: structural on the text, with a
pending skip counter `k` (after a match the scan resumes past the match, so
occurrences are counted non-overlapping, exactly like `str.count`). -/
def countAux (pat : List Char) : List Char → Nat → Nat
  | [], _ => if pat = [] then 1 else 0
  | c :: t, k =>
    if k > 0 then countAux pat t (k - 1)
    else if List.isPrefixOf pat (c :: t) then 1 + countAux pat t (pat.length - 1)
    else countAux pat t 0

/-- Python `text.count(pat)`: number of non-overlapping occurrences of
`pat` in `text`, scanning left to right. -/
def strCount (text pat : List Char) : Nat :=
  countAux pat text 0

/-- Python `text.find(pat)` as an `Option`: index of the first occurrence
of `pat` in `text` (`none` plays the role of `-1`). -/
def findSub (pat : List Char) : List Char → Option Nat
  | [] => if pat = [] then some 0 else none
  | c :: t =>
    if List.isPrefixOf pat (c :: t) then some 0
    else (findSub pat t).map (· + 1)

/-- Embedding of `make_excerpt` from `transcribe_extract.py`: a 60-character window each
side of `idx`, clipped to the text bounds, then stripped.  (`max(0, idx-60)`
is Nat truncated subtraction here.) -/
def make_excerpt (text : List Char) (idx : Nat) : List Char :=
  let window := 60
  let start := idx - window
  let stop := min text.length (idx + window)
  pyStrip ((text.drop start).take (stop - start))

/-- A value of the Python alias dictionary `bait_dict`: either an actual
list of alias strings, or some non-list value (which `extract_baits`
ignores via its `isinstance(keywords, list)` guard). -/
inductive BaitVal where
  | strs : List String → BaitVal
  | notList : BaitVal
deriving DecidableEq

/-- The `BaitHit` dataclass of `transcribe_extract.py`. -/
structure BaitHit where
  bait : String
  keyword : String
  confidence : Int
  excerpt : List Char
deriving DecidableEq

/-- The confidence computation of `extract_baits` (lines 104-113): base 65,
+10 for a normalized alias of length ≥ 10, +10 for count ≥ 2, +5 for
count ≥ 4, clamped by `min 95`. -/
def scoreOf (kw_n : List Char) (count : Nat) : Int :=
  let base : Int := 65
  let base := if kw_n.length ≥ 10 then base + 10 else base
  let base := if count ≥ 2 then base + 10 else base
  let base := if count ≥ 4 then base + 5 else base
  min 95 base

/-- Association-list update with overwrite: Python `d[k] = v`. -/
def assocSet (k : List Char) (v : Nat) : List (List Char × Nat) → List (List Char × Nat)
  | [] => [(k, v)]
  | (k2, v2) :: rest => if k = k2 then (k, v) :: rest else (k2, v2) :: assocSet k v rest

/-- Association-list lookup with default: Python `d.get(k, dflt)`. -/
def assocGetD (k : List Char) (dflt : Nat) : List (List Char × Nat) → Nat
  | [] => dflt
  | (k2, v2) :: rest => if k = k2 then v2 else assocGetD k dflt rest

/-- Inner loop of the `keyword_counts` precomputation in `extract_baits`:
for each keyword of one dictionary entry, store the non-overlapping
occurrence count of its normalized form (skipping empty normalizations). -/
def buildInner (text : List Char) (acc : List (List Char × Nat)) : List String → List (List Char × Nat)
  | [] => acc
  | kw :: rest =>
    let kw_n := normalize_text kw.data
    if kw_n = [] then buildInner text acc rest
    else buildInner text (assocSet kw_n (strCount text kw_n) acc) rest

/-- The `keyword_counts` dictionary of `extract_baits` (lines 76-85):
built by scanning every `(bait, keywords)` entry, ignoring non-list
values. -/
def buildKeywordCounts (text : List Char) : List (String × BaitVal) → List (List Char × Nat) → List (List Char × Nat)
  | [], acc => acc
  | (_, BaitVal.notList) :: rest, acc => buildKeywordCounts text rest acc
  | (_, BaitVal.strs kws) :: rest, acc => buildKeywordCounts text rest (buildInner text acc kws)

/-- Mutable state of the main loop of `extract_baits`: the `seen` set of
`(bait, normalized keyword)` pairs and the accumulated `hits` list. -/
structure ExtState where
  seen : List (String × List Char)
  hits : List BaitHit
deriving DecidableEq

/-- Body of the inner `for kw in keywords` loop of `extract_baits`
(lines 90-116): skip empty normalizations, skip absent keywords, skip
already-seen `(bait, kw_n)` pairs, otherwise score and append one hit. -/
def processKw (text : List Char) (counts : List (List Char × Nat)) (bait : String)
    (st : ExtState) (kw : String) : ExtState :=
  let kw_n := normalize_text kw.data
  if kw_n = [] then st
  else
    match findSub kw_n text with
    | none => st
    | some pos =>
      if (bait, kw_n) ∈ st.seen then st
      else
        let count := assocGetD kw_n 1 counts
        let conf := scoreOf kw_n count
        let excerpt := make_excerpt text pos
        { seen := (bait, kw_n) :: st.seen
          hits := st.hits ++ [⟨bait, kw, conf, excerpt⟩] }

/-- Body of the outer `for bait, keywords in bait_dict.items()` loop of
`extract_baits` (lines 87-116): non-list values are skipped. -/
def processEntry (text : List Char) (counts : List (List Char × Nat))
    (st : ExtState) (entry : String × BaitVal) : ExtState :=
  match entry.2 with
  | BaitVal.notList => st
  | BaitVal.strs kws => kws.foldl (processKw text counts entry.1) st

/-- The comparator realised by `hits.sort(key=lambda h: (-h.confidence, h.bait))`:
descending confidence, ties broken by ascending bait key. -/
def hitLE (a b : BaitHit) : Prop :=
  b.confidence < a.confidence ∨ (a.confidence = b.confidence ∧ a.bait ≤ b.bait)

instance : DecidableRel hitLE := fun a b =>
  inferInstanceAs (Decidable
    (b.confidence < a.confidence ∨ (a.confidence = b.confidence ∧ a.bait ≤ b.bait)))

instance : IsTotal BaitHit hitLE where
  total a b := by
    rcases lt_trichotomy a.confidence b.confidence with h | h | h
    · exact Or.inr (Or.inl h)
    · rcases le_total a.bait b.bait with hb | hb
      · exact Or.inl (Or.inr ⟨h, hb⟩)
      · exact Or.inr (Or.inr ⟨h.symm, hb⟩)
    · exact Or.inl (Or.inl h)

instance : IsTrans BaitHit hitLE where
  trans a b c hab hbc := by
    rcases hab with hab | ⟨hab1, hab2⟩
    · rcases hbc with hbc | ⟨hbc1, hbc2⟩
      · exact Or.inl (hbc.trans hab)
      · exact Or.inl (lt_of_eq_of_lt hbc1.symm hab)
    · rcases hbc with hbc | ⟨hbc1, hbc2⟩
      · exact Or.inl (lt_of_lt_of_eq hbc hab1.symm)
      · exact Or.inr ⟨hab1.trans hbc1, hab2.trans hbc2⟩

/-- Embedding of `extract_baits` from `transcribe_extract.py`: normalize the text,
precompute keyword occurrence counts, run the main loop, and sort by
descending confidence with bait key as tie-break (a stable sort, like
Python's `list.sort`). -/
def extract_baits (full_text : String) (bait_dict : List (String × BaitVal)) : List BaitHit :=
  let text := normalize_text full_text.data
  let counts := buildKeywordCounts text bait_dict []
  let st := bait_dict.foldl (processEntry text counts) ⟨[], []⟩
  List.insertionSort hitLE st.hits

/-! ## Storage layer (`backend/db.py`) modelled as a pure state transformer

SQLite rows become list entries; `AUTOINCREMENT` ids are tracked by
`next_bait_id` / `next_hit_id`; `now_iso()` becomes an explicit `now`
argument.  `REAL` timestamp fields are pure pass-through values in the
source (no arithmetic), modelled here with integer-valued times. -/

/-- A row of the `videos` table. -/
structure VideoRow where
  video_id : String
  title : Option String
  channel : Option String
  published : Option String
  url : Option String
  thumbnail : Option String
  src : Option String
  created_at : String
deriving DecidableEq

/-- A row of the `baits` table. -/
structure BaitRow where
  bait_id : Nat
  name : String
  category : Option String
  created_at : String
deriving DecidableEq

/-- A row of the `bait_hits` table. -/
structure HitRow where
  hit_id : Nat
  video_id : String
  bait_id : Nat
  bait_text : Option String
  snippet : Option String
  t_start : Option Int
  t_end : Option Int
  confidence : Int
  created_at : String
deriving DecidableEq

/-- The database state: the three tables of the subsystem plus the
autoincrement counters. -/
structure DB where
  videos : List VideoRow
  baits : List BaitRow
  bait_hits : List HitRow
  next_bait_id : Nat
  next_hit_id : Nat
deriving DecidableEq

/-- Python `a or b` on optional strings: `None` and `""` are falsy. -/
def pyOr (a b : Option String) : Option String :=
  match a with
  | some s => if s = "" then b else some s
  | none => b

/-- Python `str.strip()` on `String`. -/
def stripStr (s : String) : String :=
  ⟨pyStrip s.data⟩

/-- Embedding of `upsert_video` from `db.py` (lines 105-128): `INSERT ... ON CONFLICT
(video_id) DO UPDATE` over the mutable fields; `created_at` is not in the
update list, so an existing row keeps its original creation timestamp. -/
def upsert_video (db : DB) (v : VideoRow) : DB :=
  if db.videos.any (fun r => r.video_id == v.video_id) then
    { db with
        videos := db.videos.map (fun r =>
          if r.video_id = v.video_id then
            { r with
                title := v.title
                channel := v.channel
                published := v.published
                url := v.url
                thumbnail := v.thumbnail
                src := v.src }
          else r) }
  else
    { db with videos := db.videos ++ [v] }

/-- Embedding of `ensure_bait` from `db.py` (lines 171-185): strip the name, raise
`ValueError` on an empty result, return the existing `bait_id` if the name
resolves, otherwise insert a new row — storing the supplied `category`
verbatim — and return the fresh id. -/
def ensure_bait (db : DB) (now : String) (name : Option String) (category : Option String) :
    Except String (DB × Nat) :=
  let name := stripStr (name.getD "")
  if name = "" then Except.error "bait name is empty"
  else
    match db.baits.find? (fun b => b.name == name) with
    | some b => Except.ok (db, b.bait_id)
    | none =>
      let bid := db.next_bait_id
      Except.ok
        ({ db with
            baits := db.baits ++ [⟨bid, name, category, now⟩]
            next_bait_id := bid + 1 },
         bid)

/-- One raw hit record of the ingest payload (`insert_bait_hits` docstring):
`bait_name`/`name` key variants, optional evidence fields, optional
confidence. -/
structure RawHit where
  bait_name : Option String
  name : Option String
  category : Option String
  bait_text : Option String
  snippet : Option String
  t_start : Option Int
  t_end : Option Int
  confidence : Option Int
deriving DecidableEq

/-- Embedding of `insert_bait_hits` from `db.py` (lines 188-222), one hit at a time:
resolve the bait by `h.get("bait_name") or h.get("name")` (an empty name
raises `ValueError` inside `ensure_bait`), then `INSERT` a `bait_hits` row
(with `PRAGMA foreign_keys=ON` a dangling reference raises an
`IntegrityError`), counting inserted rows. -/
def insert_bait_hits_aux (now video_id : String) :
    DB → Nat → List RawHit → Except String (DB × Nat)
  | db, count, [] => Except.ok (db, count)
  | db, count, h :: rest =>
    match ensure_bait db now (pyOr h.bait_name h.name) h.category with
    | Except.error e => Except.error e
    | Except.ok (db2, bid) =>
      if db2.videos.any (fun r => r.video_id == video_id) then
        if db2.baits.any (fun b => b.bait_id == bid) then
          let row : HitRow :=
            ⟨db2.next_hit_id, video_id, bid, h.bait_text, h.snippet,
             h.t_start, h.t_end, h.confidence.getD 70, now⟩
          insert_bait_hits_aux now video_id
            { db2 with
                bait_hits := db2.bait_hits ++ [row]
                next_hit_id := db2.next_hit_id + 1 }
            (count + 1) rest
        else Except.error "FOREIGN KEY constraint failed"
      else Except.error "FOREIGN KEY constraint failed"

/-- Embedding of `insert_bait_hits(conn, video_id, hits)`: returns the database after
all inserts together with the inserted count, or the first error raised. -/
def insert_bait_hits (db : DB) (now video_id : String) (hits : List RawHit) :
    Except String (DB × Nat) :=
  insert_bait_hits_aux now video_id db 0 hits

/-- The `video` object of the ingest payload (`app.py` lines 181-198),
with both accepted key spellings for id, channel and publish date. -/
structure VideoPayload where
  video_id : Option String
  videoId : Option String
  title : Option String
  channel : Option String
  channelTitle : Option String
  published : Option String
  publishedAt : Option String
  url : Option String
  thumbnail : Option String
  src : Option String
deriving DecidableEq

/-- The `hits` value of the ingest payload: either an actual list of hit
records, or some non-list value (rejected inside the transaction). -/
inductive HitsVal where
  | isList : List RawHit → HitsVal
  | notList : HitsVal
deriving DecidableEq

/-- The body of `api_baits_ingest`'s `with connect() as conn:` block
(`app.py` lines 200-207): upsert the video, reject a non-list `hits`
value, insert the hits. -/
def ingest_tx (db : DB) (now : String) (vrow : VideoRow) (video_id : String)
    (hits : HitsVal) : Except String (DB × Nat) :=
  let db1 := upsert_video db vrow
  match hits with
  | HitsVal.notList => Except.error "payload.hits must be a list"
  | HitsVal.isList hs => insert_bait_hits db1 now video_id hs

/-- The normalized video row built by `api_baits_ingest` (`app.py` lines
189-198): canonical field names, `source` defaulted to `"ingest"`,
`created_at` stamped now. -/
def ingest_vrow (video : VideoPayload) (video_id now : String) : VideoRow :=
  { video_id := video_id
    title := video.title
    channel := pyOr video.channel video.channelTitle
    published := pyOr video.published video.publishedAt
    url := video.url
    thumbnail := video.thumbnail
    src := some (match pyOr video.src none with
      | some s => s
      | none => "ingest")
    created_at := now }

/-- Embedding of `api_baits_ingest` from `app.py` (lines 181-209).  The empty-id check
runs before the connection is opened; the `with connect()` block commits
on success and rolls back on an exception (sqlite3 connection context
manager), so an error leaves the database unchanged. -/
def api_baits_ingest (db : DB) (now : String) (video : VideoPayload) (hits : HitsVal) :
    DB × Except String (String × Nat) :=
  if stripStr ((pyOr video.video_id video.videoId).getD "") = "" then
    (db, Except.error "payload.video.video_id is required")
  else
    match ingest_tx db now
        (ingest_vrow video (stripStr ((pyOr video.video_id video.videoId).getD "")) now)
        (stripStr ((pyOr video.video_id video.videoId).getD "")) hits with
    | Except.error e => (db, Except.error e)
    | Except.ok (db2, n) =>
      (db2, Except.ok (stripStr ((pyOr video.video_id video.videoId).getD ""), n))

/-! ## Lemmas about the keyword-counts dictionary -/

/-- Every value stored in the counts dictionary is the occurrence count of
its key (the only values ever stored are `text.count(kw_n)`). -/
def CountsInv (text : List Char) (l : List (List Char × Nat)) : Prop :=
  ∀ p ∈ l, p.2 = strCount text p.1

/-- The key `k` is present in the dictionary. -/
def HasKey (k : List Char) (l : List (List Char × Nat)) : Prop :=
  ∃ v, (k, v) ∈ l

theorem assocGetD_set_self (k : List Char) (v : Nat) (d : Nat) (l : List (List Char × Nat)) :
    assocGetD k d (assocSet k v l) = v := by
  induction l with
  | nil => simp [assocSet, assocGetD]
  | cons p rest ih =>
    obtain ⟨k2, v2⟩ := p
    by_cases h : k = k2
    · simp [assocSet, assocGetD, h]
    · simp [assocSet, assocGetD, h, ih]

theorem assocGetD_set_ne (k k2 : List Char) (v : Nat) (d : Nat) (l : List (List Char × Nat))
    (h : k ≠ k2) : assocGetD k d (assocSet k2 v l) = assocGetD k d l := by
  induction l with
  | nil => simp [assocSet, assocGetD, h]
  | cons p rest ih =>
    obtain ⟨k3, v3⟩ := p
    by_cases h2 : k2 = k3
    · subst h2
      simp [assocSet, assocGetD, h]
    · by_cases h3 : k = k3
      · simp [assocSet, assocGetD, h2, h3]
      · simp [assocSet, assocGetD, h2, h3, ih]

theorem mem_assocSet (p : List Char × Nat) (k : List Char) (v : Nat)
    (l : List (List Char × Nat)) (h : p ∈ assocSet k v l) : p = (k, v) ∨ p ∈ l := by
  induction l with
  | nil => simpa [assocSet] using h
  | cons q rest ih =>
    obtain ⟨k2, v2⟩ := q
    by_cases h2 : k = k2
    · simp only [assocSet, if_pos h2, List.mem_cons] at h
      rcases h with h | h
      · exact Or.inl h
      · exact Or.inr (List.mem_cons_of_mem _ h)
    · simp only [assocSet, if_neg h2, List.mem_cons] at h
      rcases h with h | h
      · exact Or.inr (by simp [h])
      · rcases ih h with h3 | h3
        · exact Or.inl h3
        · exact Or.inr (List.mem_cons_of_mem _ h3)

theorem hasKey_set_self (k : List Char) (v : Nat) (l : List (List Char × Nat)) :
    HasKey k (assocSet k v l) := by
  induction l with
  | nil => exact ⟨v, by simp [assocSet]⟩
  | cons q rest ih =>
    obtain ⟨k2, v2⟩ := q
    by_cases h2 : k = k2
    · exact ⟨v, by simp [assocSet, h2]⟩
    · obtain ⟨w, hw⟩ := ih
      exact ⟨w, by simp [assocSet, h2, hw]⟩

theorem hasKey_set_mono (k k2 : List Char) (v : Nat) (l : List (List Char × Nat))
    (h : HasKey k l) : HasKey k (assocSet k2 v l) := by
  by_cases he : k = k2
  · subst he
    exact hasKey_set_self k v l
  · obtain ⟨w, hw⟩ := h
    induction l with
    | nil => simp at hw
    | cons q rest ih =>
      obtain ⟨k3, v3⟩ := q
      by_cases h3 : k2 = k3
      · subst h3
        rcases List.mem_cons.mp hw with h4 | h4
        · exact absurd (congrArg Prod.fst h4) he
        · exact ⟨w, by simp [assocSet, h4]⟩
      · rcases List.mem_cons.mp hw with h4 | h4
        · exact ⟨w, by simp [assocSet, h3, h4]⟩
        · obtain ⟨w2, hw2⟩ := ih h4
          exact ⟨w2, by simp [assocSet, h3]; exact Or.inr hw2⟩

theorem countsInv_set (text k : List Char) (l : List (List Char × Nat))
    (h : CountsInv text l) : CountsInv text (assocSet k (strCount text k) l) := by
  intro p hp
  rcases mem_assocSet p k (strCount text k) l hp with h2 | h2
  · subst h2; rfl
  · exact h p h2

theorem assocGetD_eq_of_hasKey (text k : List Char) (l : List (List Char × Nat))
    (hinv : CountsInv text l) (hk : HasKey k l) :
    assocGetD k 1 l = strCount text k := by
  obtain ⟨v, hv⟩ := hk
  induction l with
  | nil => simp at hv
  | cons q rest ih =>
    obtain ⟨k2, v2⟩ := q
    by_cases h2 : k = k2
    · subst h2
      simpa [assocGetD] using hinv (k, v2) (by simp)
    · rcases List.mem_cons.mp hv with h3 | h3
      · exact absurd (congrArg Prod.fst h3) h2
      · simp only [assocGetD, if_neg h2]
        exact ih (fun p hp => hinv p (List.mem_cons_of_mem _ hp)) h3

theorem countsInv_buildInner (text : List Char) (kws : List String)
    (acc : List (List Char × Nat)) (h : CountsInv text acc) :
    CountsInv text (buildInner text acc kws) := by
  induction kws generalizing acc with
  | nil => exact h
  | cons kw rest ih =>
    by_cases he : normalize_text kw.data = []
    · simpa [buildInner, he] using ih acc h
    · simpa [buildInner, he] using
        ih _ (countsInv_set text (normalize_text kw.data) acc h)

theorem hasKey_buildInner_mono (text k : List Char) (kws : List String)
    (acc : List (List Char × Nat)) (h : HasKey k acc) :
    HasKey k (buildInner text acc kws) := by
  induction kws generalizing acc with
  | nil => exact h
  | cons kw rest ih =>
    by_cases he : normalize_text kw.data = []
    · simpa [buildInner, he] using ih acc h
    · simpa [buildInner, he] using
        ih _ (hasKey_set_mono k (normalize_text kw.data) _ acc h)

theorem hasKey_buildInner_of_mem (text : List Char) (kws : List String)
    (acc : List (List Char × Nat)) (kw : String) (hm : kw ∈ kws)
    (hne : normalize_text kw.data ≠ []) :
    HasKey (normalize_text kw.data) (buildInner text acc kws) := by
  induction kws generalizing acc with
  | nil => simp at hm
  | cons kw2 rest ih =>
    rcases List.mem_cons.mp hm with h2 | h2
    · subst h2
      simp only [buildInner, if_neg hne]
      exact hasKey_buildInner_mono text _ rest _
        (hasKey_set_self (normalize_text kw.data) _ acc)
    · by_cases he : normalize_text kw2.data = []
      · simpa [buildInner, he] using ih acc h2
      · simpa [buildInner, he] using ih _ h2

theorem countsInv_buildKeywordCounts (text : List Char) (table : List (String × BaitVal))
    (acc : List (List Char × Nat)) (h : CountsInv text acc) :
    CountsInv text (buildKeywordCounts text table acc) := by
  induction table generalizing acc with
  | nil => exact h
  | cons e rest ih =>
    obtain ⟨bait, val⟩ := e
    cases val with
    | notList => simpa [buildKeywordCounts] using ih acc h
    | strs kws =>
      simpa [buildKeywordCounts] using ih _ (countsInv_buildInner text kws acc h)

theorem hasKey_buildKeywordCounts_mono (text k : List Char) (table : List (String × BaitVal))
    (acc : List (List Char × Nat)) (h : HasKey k acc) :
    HasKey k (buildKeywordCounts text table acc) := by
  induction table generalizing acc with
  | nil => exact h
  | cons e rest ih =>
    obtain ⟨bait, val⟩ := e
    cases val with
    | notList => simpa [buildKeywordCounts] using ih acc h
    | strs kws =>
      simpa [buildKeywordCounts] using ih _ (hasKey_buildInner_mono text k kws acc h)

theorem hasKey_buildKeywordCounts_of_mem (text : List Char) (table : List (String × BaitVal))
    (acc : List (List Char × Nat)) (bait : String) (kws : List String) (kw : String)
    (hent : (bait, BaitVal.strs kws) ∈ table) (hkw : kw ∈ kws)
    (hne : normalize_text kw.data ≠ []) :
    HasKey (normalize_text kw.data) (buildKeywordCounts text table acc) := by
  induction table generalizing acc with
  | nil => simp at hent
  | cons e rest ih =>
    rcases List.mem_cons.mp hent with h2 | h2
    · subst h2
      simp only [buildKeywordCounts]
      exact hasKey_buildKeywordCounts_mono text _ rest _
        (hasKey_buildInner_of_mem text kws acc kw hkw hne)
    · obtain ⟨bait2, val⟩ := e
      cases val with
      | notList => simpa [buildKeywordCounts] using ih acc h2
      | strs kws2 => simpa [buildKeywordCounts] using ih _ h2

/-- The central fact about the precomputed dictionary: for every keyword
that actually appears (with a list value and a non-empty normalization) in
the alias table, `keyword_counts.get(kw_n, 1)` returns exactly
`text.count(kw_n)`. -/
theorem counts_getD_eq (text : List Char) (table : List (String × BaitVal))
    (bait : String) (kws : List String) (kw : String)
    (hent : (bait, BaitVal.strs kws) ∈ table) (hkw : kw ∈ kws)
    (hne : normalize_text kw.data ≠ []) :
    assocGetD (normalize_text kw.data) 1 (buildKeywordCounts text table []) =
      strCount text (normalize_text kw.data) :=
  assocGetD_eq_of_hasKey text _ _
    (countsInv_buildKeywordCounts text table [] (by intro p hp; simp at hp))
    (hasKey_buildKeywordCounts_of_mem text table [] bait kws kw hent hkw hne)

/-! ## Lemmas about the main extraction loop -/

/-- The deduplication key of a hit: the `(bait, kw_n)` pair that
`extract_baits` stores in its `seen` set. -/
def hitKey (h : BaitHit) : String × List Char :=
  (h.bait, normalize_text h.keyword.data)

/-- Per-hit facts established by the loop body: the confidence is exactly
the documented score of the normalized keyword and its occurrence count,
and the normalized keyword does occur in the normalized text. -/
def HitOK (text : List Char) (h : BaitHit) : Prop :=
  h.confidence =
      scoreOf (normalize_text h.keyword.data)
        (strCount text (normalize_text h.keyword.data)) ∧
  (findSub (normalize_text h.keyword.data) text).isSome = true

/-- Loop invariant of `extract_baits`: every accumulated hit is `HitOK`,
hit keys are pairwise distinct, and every hit's key is in `seen`. -/
def StInv (text : List Char) (st : ExtState) : Prop :=
  (∀ h ∈ st.hits, HitOK text h) ∧
  st.hits.Pairwise (fun a b => hitKey a ≠ hitKey b) ∧
  (∀ h ∈ st.hits, hitKey h ∈ st.seen)

/-- The counts dictionary answers correctly for this keyword (discharged
for real tables by `counts_getD_eq`). -/
def GoodKw (text : List Char) (counts : List (List Char × Nat)) (kw : String) : Prop :=
  normalize_text kw.data ≠ [] →
    assocGetD (normalize_text kw.data) 1 counts = strCount text (normalize_text kw.data)

theorem stInv_processKw (text : List Char) (counts : List (List Char × Nat))
    (bait : String) (st : ExtState) (kw : String)
    (hg : GoodKw text counts kw) (hinv : StInv text st) :
    StInv text (processKw text counts bait st kw) := by
  obtain ⟨hok, hpw, hseen⟩ := hinv
  simp only [processKw]
  by_cases h1 : normalize_text kw.data = []
  · simpa [h1] using ⟨hok, hpw, hseen⟩
  · simp only [if_neg h1]
    cases hf : findSub (normalize_text kw.data) text with
    | none => exact ⟨hok, hpw, hseen⟩
    | some pos =>
      by_cases h2 : (bait, normalize_text kw.data) ∈ st.seen
      · simpa [h2] using ⟨hok, hpw, hseen⟩
      · simp only [if_neg h2]
        refine ⟨?_, ?_, ?_⟩
        · intro h hm
          rcases List.mem_append.mp hm with hm | hm
          · exact hok h hm
          · rcases List.mem_singleton.mp hm with rfl
            refine ⟨?_, ?_⟩
            · simp only [BaitHit.confidence]
              rw [hg h1]
            · simp [hf]
        · rw [List.pairwise_append]
          refine ⟨hpw, by simp, ?_⟩
          intro a ha b hb
          rcases List.mem_singleton.mp hb with rfl
          intro hcontra
          apply h2
          have hk2 : hitKey a = (bait, normalize_text kw.data) := hcontra
          exact hk2 ▸ hseen a ha
        · intro h hm
          rcases List.mem_append.mp hm with hm | hm
          · exact List.mem_cons_of_mem _ (hseen h hm)
          · rcases List.mem_singleton.mp hm with rfl
            exact List.mem_cons_self _ _

theorem stInv_foldKws (text : List Char) (counts : List (List Char × Nat))
    (bait : String) (kws : List String) (st : ExtState)
    (hg : ∀ kw ∈ kws, GoodKw text counts kw) (hinv : StInv text st) :
    StInv text (kws.foldl (processKw text counts bait) st) := by
  induction kws generalizing st with
  | nil => exact hinv
  | cons kw rest ih =>
    simp only [List.foldl_cons]
    exact ih _ (fun k hk => hg k (List.mem_cons_of_mem _ hk))
      (stInv_processKw text counts bait st kw (hg kw (List.mem_cons_self _ _)) hinv)

theorem stInv_foldTable (text : List Char) (counts : List (List Char × Nat))
    (table : List (String × BaitVal)) (st : ExtState)
    (hg : ∀ e ∈ table, ∀ kws, e.2 = BaitVal.strs kws → ∀ kw ∈ kws, GoodKw text counts kw)
    (hinv : StInv text st) :
    StInv text (table.foldl (processEntry text counts) st) := by
  induction table generalizing st with
  | nil => exact hinv
  | cons e rest ih =>
    simp only [List.foldl_cons]
    refine ih _ (fun e2 he2 => hg e2 (List.mem_cons_of_mem _ he2)) ?_
    obtain ⟨bait, val⟩ := e
    cases val with
    | notList => exact hinv
    | strs kws =>
      exact stInv_foldKws text counts bait kws st
        (hg (bait, BaitVal.strs kws) (List.mem_cons_self _ _) kws rfl) hinv

/-- Master lemma: the output of `extract_baits` consists of hits whose
confidence matches the documented formula, whose normalized keywords occur
in the normalized text, and whose `(bait, kw_n)` keys are pairwise
distinct. -/
theorem extract_baits_master (t : String) (d : List (String × BaitVal)) :
    (∀ h ∈ extract_baits t d, HitOK (normalize_text t.data) h) ∧
    (extract_baits t d).Pairwise (fun a b => hitKey a ≠ hitKey b) := by
  have hperm := List.perm_insertionSort hitLE
    ((d.foldl (processEntry (normalize_text t.data)
      (buildKeywordCounts (normalize_text t.data) d [])) ⟨[], []⟩).hits)
  have hinv : StInv (normalize_text t.data)
      (d.foldl (processEntry (normalize_text t.data)
        (buildKeywordCounts (normalize_text t.data) d [])) ⟨[], []⟩) := by
    refine stInv_foldTable _ _ d ⟨[], []⟩ ?_ ⟨by simp, by simp, by simp⟩
    intro e he kws hkws kw hkw hne
    obtain ⟨bait, val⟩ := e
    cases hkws
    exact counts_getD_eq (normalize_text t.data) d bait kws kw he hkw hne
  obtain ⟨hok, hpw, _⟩ := hinv
  constructor
  · intro h hm
    exact hok h (hperm.mem_iff.mp hm)
  · refine (List.Perm.pairwise_iff ?_ hperm.symm).mp hpw
    intro a b hab
    exact fun h => hab h.symm

/-- The score is the claimed additive formula: base 65, +10 for length,
+10 for count ≥ 2, +5 for count ≥ 4, clamped by `min 95`. -/
theorem scoreOf_eq_formula (kw_n : List Char) (count : Nat) :
    scoreOf kw_n count =
      min 95 (65 + (if kw_n.length ≥ 10 then (10 : Int) else 0)
        + (if count ≥ 2 then (10 : Int) else 0)
        + (if count ≥ 4 then (5 : Int) else 0)) := by
  simp only [scoreOf]
  split_ifs <;> norm_num

/-- The score always lies in `[65, 90]` (so in particular in `[0, 95]`). -/
theorem scoreOf_bounds (kw_n : List Char) (count : Nat) :
    65 ≤ scoreOf kw_n count ∧ scoreOf kw_n count ≤ 90 := by
  simp only [scoreOf]
  split_ifs <;> norm_num

/-! ## The extractor ignores malformed table entries -/

/-- Keep an alias only when its normalization is non-empty (the filter
realising the `if not kw_n: continue` skip). -/
def keepKw (kw : String) : Bool :=
  decide (normalize_text kw.data ≠ [])

/-- The alias table with the entries `extract_baits` skips removed:
non-list values are dropped, and aliases whose normalization is empty are
filtered out of each list. -/
def cleanTable (table : List (String × BaitVal)) : List (String × BaitVal) :=
  table.filterMap (fun e =>
    match e.2 with
    | BaitVal.notList => none
    | BaitVal.strs kws => some (e.1, BaitVal.strs (kws.filter keepKw)))

theorem cleanTable_cons_notList (bait : String) (rest : List (String × BaitVal)) :
    cleanTable ((bait, BaitVal.notList) :: rest) = cleanTable rest := by
  simp [cleanTable]

theorem cleanTable_cons_strs (bait : String) (kws : List String)
    (rest : List (String × BaitVal)) :
    cleanTable ((bait, BaitVal.strs kws) :: rest) =
      (bait, BaitVal.strs (kws.filter keepKw)) :: cleanTable rest := by
  simp [cleanTable]

theorem buildInner_filter (text : List Char) (acc : List (List Char × Nat))
    (kws : List String) :
    buildInner text acc kws = buildInner text acc (kws.filter keepKw) := by
  induction kws generalizing acc with
  | nil => rfl
  | cons kw rest ih =>
    by_cases he : normalize_text kw.data = []
    · have hk : keepKw kw = false := by simp [keepKw, he]
      simp only [buildInner, if_pos he, List.filter_cons, hk, Bool.false_eq_true, if_false]
      exact ih acc
    · have hk : keepKw kw = true := by simp [keepKw, he]
      simp only [buildInner, if_neg he, List.filter_cons, hk, if_true]
      exact ih _

theorem foldKws_filter (text : List Char) (counts : List (List Char × Nat))
    (bait : String) (kws : List String) (st : ExtState) :
    kws.foldl (processKw text counts bait) st =
      (kws.filter keepKw).foldl (processKw text counts bait) st := by
  induction kws generalizing st with
  | nil => rfl
  | cons kw rest ih =>
    by_cases he : normalize_text kw.data = []
    · have hk : keepKw kw = false := by simp [keepKw, he]
      have hskip : processKw text counts bait st kw = st := by
        simp [processKw, he]
      simp only [List.foldl_cons, List.filter_cons, hk, Bool.false_eq_true, if_false, hskip]
      exact ih st
    · have hk : keepKw kw = true := by simp [keepKw, he]
      simp only [List.foldl_cons, List.filter_cons, hk, if_true, List.foldl_cons]
      exact ih _

theorem buildKeywordCounts_clean (text : List Char) (table : List (String × BaitVal))
    (acc : List (List Char × Nat)) :
    buildKeywordCounts text table acc = buildKeywordCounts text (cleanTable table) acc := by
  induction table generalizing acc with
  | nil => rfl
  | cons e rest ih =>
    obtain ⟨bait, val⟩ := e
    cases val with
    | notList =>
      rw [cleanTable_cons_notList]
      simpa [buildKeywordCounts] using ih acc
    | strs kws =>
      rw [cleanTable_cons_strs]
      simp only [buildKeywordCounts]
      rw [← buildInner_filter]
      exact ih _

theorem foldTable_clean (text : List Char) (counts : List (List Char × Nat))
    (table : List (String × BaitVal)) (st : ExtState) :
    table.foldl (processEntry text counts) st =
      (cleanTable table).foldl (processEntry text counts) st := by
  induction table generalizing st with
  | nil => rfl
  | cons e rest ih =>
    obtain ⟨bait, val⟩ := e
    cases val with
    | notList =>
      rw [cleanTable_cons_notList]
      simpa [processEntry] using ih st
    | strs kws =>
      rw [cleanTable_cons_strs]
      simp only [List.foldl_cons, processEntry]
      rw [← foldKws_filter]
      exact ih _

/-! ## Claims about the extractor -/

/-- C1: every hit emitted by `extract_baits` has its confidence computed
as base 65, plus 10 if the normalized matched alias is at least 10
characters long, plus 10 if the alias's non-overlapping occurrence count
in the normalized text is at least 2, plus a further 5 if that count is at
least 4, clamped to a maximum of 95; consequently every emitted hit has
`0 ≤ confidence ≤ 95`. -/
theorem extract_baits_confidence_formula (t : String) (d : List (String × BaitVal))
    (h : BaitHit) (hm : h ∈ extract_baits t d) :
    h.confidence =
      min 95 (65 + (if (normalize_text h.keyword.data).length ≥ 10 then (10 : Int) else 0)
        + (if strCount (normalize_text t.data) (normalize_text h.keyword.data) ≥ 2 then (10 : Int) else 0)
        + (if strCount (normalize_text t.data) (normalize_text h.keyword.data) ≥ 4 then (5 : Int) else 0)) ∧
    0 ≤ h.confidence ∧ h.confidence ≤ 95 := by
  have hok := (extract_baits_master t d).1 h hm
  have hconf := hok.1
  refine ⟨?_, ?_, ?_⟩
  · rw [hconf, scoreOf_eq_formula]
  · rw [hconf]
    have := (scoreOf_bounds (normalize_text h.keyword.data)
      (strCount (normalize_text t.data) (normalize_text h.keyword.data))).1
    omega
  · rw [hconf]
    have := (scoreOf_bounds (normalize_text h.keyword.data)
      (strCount (normalize_text t.data) (normalize_text h.keyword.data))).2
    omega

/-- Witness for C1 at a concrete input: the alias `"spinnerbait"`
(length 11, two occurrences) scores `min 95 (65 + 10 + 10 + 0) = 85`. -/
theorem extract_baits_confidence_formula_witness :
    (⟨"spinnerbait", "spinnerbait", 85, "spinnerbait spinnerbait".data⟩ : BaitHit).confidence =
      min 95 (65 + (if (normalize_text "spinnerbait".data).length ≥ 10 then (10 : Int) else 0)
        + (if strCount (normalize_text "spinnerbait spinnerbait".data) (normalize_text "spinnerbait".data) ≥ 2 then (10 : Int) else 0)
        + (if strCount (normalize_text "spinnerbait spinnerbait".data) (normalize_text "spinnerbait".data) ≥ 4 then (5 : Int) else 0)) ∧
    (0 : Int) ≤ 85 ∧ (85 : Int) ≤ 95 :=
  extract_baits_confidence_formula "spinnerbait spinnerbait"
    [("spinnerbait", BaitVal.strs ["spinnerbait"])]
    ⟨"spinnerbait", "spinnerbait", 85, "spinnerbait spinnerbait".data⟩ (by decide)

/-- C2: the hit sequence returned by `extract_baits` is sorted by
descending confidence, ties broken by ascending canonical bait key: if `A`
appears before `B` then `A.confidence > B.confidence` or
(`A.confidence = B.confidence` and `A.bait ≤ B.bait`). -/
theorem extract_baits_sorted (t : String) (d : List (String × BaitVal)) :
    (extract_baits t d).Pairwise
      (fun A B => A.confidence > B.confidence ∨
        (A.confidence = B.confidence ∧ A.bait ≤ B.bait)) := by
  have h : List.Pairwise hitLE (extract_baits t d) :=
    List.sorted_insertionSort hitLE _
  refine h.imp ?_
  intro A B hab
  rcases hab with hab | hab
  · exact Or.inl hab
  · exact Or.inr hab

/-- C3: `extract_baits` emits at most one hit per distinct
`(bait, normalized alias)` pair — any two output hits differ in bait or in
normalized keyword — and every emitted hit's normalized alias actually
occurs in the normalized text (a pair with no occurrence produces no
hit). -/
theorem extract_baits_unique_per_pair (t : String) (d : List (String × BaitVal)) :
    (extract_baits t d).Pairwise
      (fun A B => A.bait ≠ B.bait ∨
        normalize_text A.keyword.data ≠ normalize_text B.keyword.data) ∧
    ∀ h ∈ extract_baits t d,
      (findSub (normalize_text h.keyword.data) (normalize_text t.data)).isSome = true := by
  constructor
  · refine (extract_baits_master t d).2.imp ?_
    intro A B hab
    by_cases hb : A.bait = B.bait
    · right
      intro hk
      exact hab (by simp [hitKey, hb, hk])
    · exact Or.inl hb
  · intro h hm
    exact ((extract_baits_master t d).1 h hm).2

/-- Witness for C3 at a concrete input: the single `"senko"` hit's
normalized keyword occurs in the normalized text. -/
theorem extract_baits_unique_per_pair_witness :
    (findSub (normalize_text "senko".data) (normalize_text "a senko here".data)).isSome = true :=
  (extract_baits_unique_per_pair "a senko here" [("soft_plastic", BaitVal.strs ["senko"])]).2
    ⟨"soft_plastic", "senko", 65, "a senko here".data⟩ (by decide)

/-- C9: `extract_baits` never fails on malformed alias tables — it is a
total function, and malformed entries contribute nothing: the output on
any table equals the output on the table with non-list values dropped and
empty-normalizing aliases filtered out. -/
theorem extract_baits_skips_malformed (t : String) (d : List (String × BaitVal)) :
    extract_baits t d = extract_baits t (cleanTable d) := by
  simp only [extract_baits]
  rw [← buildKeywordCounts_clean, ← foldTable_clean]

/-- C10: every hit emitted by `extract_baits` has confidence in `[65, 90]`:
the maximum reachable pre-clamp score is `65+10+10+5 = 90`, so the clamp
to 95 never fires and the score never drops below the base 65. -/
theorem extract_baits_confidence_range (t : String) (d : List (String × BaitVal))
    (h : BaitHit) (hm : h ∈ extract_baits t d) :
    65 ≤ h.confidence ∧ h.confidence ≤ 90 := by
  have hconf := ((extract_baits_master t d).1 h hm).1
  rw [hconf]
  exact scoreOf_bounds _ _

/-- Witness for C10 at a concrete input: the `"senko"` hit has
confidence 65, inside `[65, 90]`. -/
theorem extract_baits_confidence_range_witness :
    (65 : Int) ≤ (⟨"soft_plastic", "senko", 65, "a senko here".data⟩ : BaitHit).confidence ∧
    (⟨"soft_plastic", "senko", 65, "a senko here".data⟩ : BaitHit).confidence ≤ 90 :=
  extract_baits_confidence_range "a senko here" [("soft_plastic", BaitVal.strs ["senko"])]
    ⟨"soft_plastic", "senko", 65, "a senko here".data⟩ (by decide)

/-! ## Lemmas about the storage layer -/

/-- The effective bait name of a raw hit: `h.get("bait_name") or
h.get("name")`, defaulted to the empty string and stripped (as done by
`ensure_bait`). -/
def effName (h : RawHit) : String :=
  stripStr ((pyOr h.bait_name h.name).getD "")

/-- The `videos` primary-key invariant: no two rows share a `video_id`. -/
def VideosUnique (db : DB) : Prop :=
  db.videos.Pairwise (fun a b => a.video_id ≠ b.video_id)

theorem ensure_bait_ok_name (db : DB) (now : String) (nm cat : Option String)
    (out : DB × Nat) (h : ensure_bait db now nm cat = Except.ok out) :
    stripStr (nm.getD "") ≠ "" := by
  intro he
  simp only [ensure_bait, he, if_pos] at h
  cases h

theorem ensure_bait_ok_props (db : DB) (now : String) (nm cat : Option String)
    (db2 : DB) (bid : Nat) (h : ensure_bait db now nm cat = Except.ok (db2, bid)) :
    db2.videos = db.videos ∧ db2.bait_hits = db.bait_hits ∧
    db2.baits.any (fun b => b.bait_id == bid) = true := by
  by_cases he : stripStr (nm.getD "") = ""
  · simp only [ensure_bait, he, if_pos] at h
    cases h
  · simp only [ensure_bait, if_neg he] at h
    cases hf : db.baits.find? (fun b => b.name == stripStr (nm.getD "")) with
    | some b =>
      rw [hf] at h
      cases h
      refine ⟨rfl, rfl, ?_⟩
      refine List.any_eq_true.mpr ⟨b, List.mem_of_find?_eq_some hf, ?_⟩
      simp
    | none =>
      rw [hf] at h
      cases h
      refine ⟨rfl, rfl, ?_⟩
      refine List.any_eq_true.mpr ⟨⟨db.next_bait_id, stripStr (nm.getD ""), cat, now⟩, ?_, ?_⟩
      · simp
      · simp

theorem ensure_bait_ok_of_name (db : DB) (now : String) (nm cat : Option String)
    (he : stripStr (nm.getD "") ≠ "") :
    ∃ db2 bid, ensure_bait db now nm cat = Except.ok (db2, bid) := by
  simp only [ensure_bait, if_neg he]
  cases hf : db.baits.find? (fun b => b.name == stripStr (nm.getD "")) with
  | some b => exact ⟨db, b.bait_id, rfl⟩
  | none => exact ⟨_, db.next_bait_id, rfl⟩

theorem insert_aux_ok_props (now vid : String) (hits : List RawHit) :
    ∀ (db : DB) (count : Nat) (db2 : DB) (n : Nat),
      insert_bait_hits_aux now vid db count hits = Except.ok (db2, n) →
      db2.videos = db.videos ∧
      db2.bait_hits.length = db.bait_hits.length + hits.length ∧
      n = count + hits.length ∧
      ∀ h ∈ hits, effName h ≠ "" := by
  induction hits with
  | nil =>
    intro db count db2 n h
    cases h
    exact ⟨rfl, by simp, by simp, by simp⟩
  | cons hd rest ih =>
    intro db count db2 n h
    simp only [insert_bait_hits_aux] at h
    cases hE : ensure_bait db now (pyOr hd.bait_name hd.name) hd.category with
    | error e => rw [hE] at h; cases h
    | ok out =>
      obtain ⟨dbE, bid⟩ := out
      rw [hE] at h
      dsimp only at h
      obtain ⟨hv, hb, hany⟩ := ensure_bait_ok_props db now _ _ dbE bid hE
      by_cases hvid : dbE.videos.any (fun r => r.video_id == vid) = true
      · rw [if_pos hvid, if_pos hany] at h
        obtain ⟨ihv, ihl, ihn, ihnames⟩ := ih _ _ _ _ h
        refine ⟨by rw [ihv]; exact hv, ?_, by rw [ihn]; simp; omega, ?_⟩
        · simp only [List.length_cons]
          rw [ihl]
          simp [hb]
          omega
        · intro h2 hm
          rcases List.mem_cons.mp hm with rfl | hm
          · exact ensure_bait_ok_name db now _ _ _ hE
          · exact ihnames h2 hm
      · rw [if_neg hvid] at h
        cases h

theorem insert_aux_ok_of (now vid : String) (hits : List RawHit) :
    ∀ (db : DB) (count : Nat),
      (∀ h ∈ hits, effName h ≠ "") →
      db.videos.any (fun r => r.video_id == vid) = true →
      ∃ db2 n, insert_bait_hits_aux now vid db count hits = Except.ok (db2, n) := by
  induction hits with
  | nil => exact fun db count _ _ => ⟨db, count, rfl⟩
  | cons hd rest ih =>
    intro db count hnames hvid
    obtain ⟨dbE, bid, hE⟩ :=
      ensure_bait_ok_of_name db now (pyOr hd.bait_name hd.name) hd.category
        (hnames hd (List.mem_cons_self _ _))
    obtain ⟨hv, hb, hany⟩ := ensure_bait_ok_props db now _ _ dbE bid hE
    have hvid2 : dbE.videos.any (fun r => r.video_id == vid) = true := by
      rw [hv]; exact hvid
    obtain ⟨db2, n, hrec⟩ :=
      ih { dbE with
            bait_hits := dbE.bait_hits ++
              [⟨dbE.next_hit_id, vid, bid, hd.bait_text, hd.snippet,
                hd.t_start, hd.t_end, hd.confidence.getD 70, now⟩]
            next_hit_id := dbE.next_hit_id + 1 }
        (count + 1)
        (fun h2 hm => hnames h2 (List.mem_cons_of_mem _ hm))
        (by simpa using hvid2)
    refine ⟨db2, n, ?_⟩
    simp only [insert_bait_hits_aux, hE, if_pos hvid2, if_pos hany]
    exact hrec

theorem upsert_video_same_tables (db : DB) (v : VideoRow) :
    (upsert_video db v).baits = db.baits ∧
    (upsert_video db v).bait_hits = db.bait_hits ∧
    (upsert_video db v).next_bait_id = db.next_bait_id ∧
    (upsert_video db v).next_hit_id = db.next_hit_id := by
  unfold upsert_video
  split <;> exact ⟨rfl, rfl, rfl, rfl⟩

theorem upsert_video_has_id (db : DB) (v : VideoRow) :
    (upsert_video db v).videos.any (fun r => r.video_id == v.video_id) = true := by
  unfold upsert_video
  by_cases hc : db.videos.any (fun r => r.video_id == v.video_id) = true
  · rw [if_pos hc]
    obtain ⟨r, hr, hb⟩ := List.any_eq_true.mp hc
    refine List.any_eq_true.mpr ?_
    by_cases hid : r.video_id = v.video_id
    · exact ⟨_, List.mem_map_of_mem _ hr, by simp [hid]⟩
    · exact absurd (by simpa using hb) hid
  · rw [if_neg hc]
    exact List.any_eq_true.mpr ⟨v, by simp, by simp⟩

theorem upsert_video_unique (db : DB) (v : VideoRow) (h : VideosUnique db) :
    VideosUnique (upsert_video db v) := by
  unfold VideosUnique upsert_video
  by_cases hc : db.videos.any (fun r => r.video_id == v.video_id) = true
  · rw [if_pos hc]
    simp only [List.pairwise_map]
    refine h.imp_of_mem ?_
    intro a b _ _ hab
    by_cases ha : a.video_id = v.video_id <;> by_cases hb2 : b.video_id = v.video_id <;>
      simp [ha, hb2] <;> simp [ha, hb2] at hab <;> exact hab
  · rw [if_neg hc]
    rw [List.pairwise_append]
    refine ⟨h, by simp, ?_⟩
    intro a ha b hb
    rcases List.mem_singleton.mp hb with rfl
    intro hcontra
    exact hc (List.any_eq_true.mpr ⟨a, ha, by simp [hcontra]⟩)

theorem countP_eq_one_of_unique (vid : String) (l : List VideoRow)
    (huniq : l.Pairwise (fun a b => a.video_id ≠ b.video_id))
    (hany : l.any (fun r => r.video_id == vid) = true) :
    l.countP (fun r => r.video_id == vid) = 1 := by
  induction l with
  | nil => simp at hany
  | cons r rest ih =>
    rcases List.pairwise_cons.mp huniq with ⟨hr, hrest⟩
    by_cases hid : r.video_id = vid
    · have hzero : rest.countP (fun r => r.video_id == vid) = 0 := by
        refine List.countP_eq_zero.mpr ?_
        intro a ha
        simpa using (hid ▸ hr a ha).symm
      simp [List.countP_cons, hid, hzero]
    · have hany2 : rest.any (fun r => r.video_id == vid) = true := by
        rcases List.any_eq_true.mp hany with ⟨a, ha, hb⟩
        rcases List.mem_cons.mp ha with rfl | ha
        · exact absurd (by simpa using hb) hid
        · exact List.any_eq_true.mpr ⟨a, ha, hb⟩
      simp [List.countP_cons, hid, ih hrest hany2]

/-- On success, the transaction body of the ingest endpoint grows
`bait_hits` by exactly the returned count, leaves `videos` as the upsert
left it, and the inserted count is the number of processed hits. -/
theorem ingest_tx_ok (db : DB) (now : String) (vrow : VideoRow) (vid : String)
    (hits : HitsVal) (db2 : DB) (n : Nat)
    (hvid : vrow.video_id = vid)
    (h : ingest_tx db now vrow vid hits = Except.ok (db2, n)) :
    db2.videos = (upsert_video db vrow).videos ∧
    db2.bait_hits.length = db.bait_hits.length + n ∧
    db2.videos.any (fun r => r.video_id == vid) = true := by
  cases hits with
  | notList => simp only [ingest_tx] at h; cases h
  | isList hs =>
    simp only [ingest_tx, insert_bait_hits] at h
    obtain ⟨hv, hl, hn, _⟩ := insert_aux_ok_props now vid hs _ _ _ _ h
    obtain ⟨_, hbh, _, _⟩ := upsert_video_same_tables db vrow
    refine ⟨hv, ?_, ?_⟩
    · rw [hl, hbh]
      omega
    · rw [hv, ← hvid]
      exact upsert_video_has_id db vrow

/-! ## Claims about the storage layer -/

/-- C7: upserting a video whose identifier already exists updates the
mutable fields (title, channel, published, url, thumbnail, source) to the
new values and leaves the `video_id` and the original `created_at` of the
existing row unchanged (no row is added or removed). -/
theorem upsert_video_updates_existing (db : DB) (v r0 : VideoRow)
    (huniq : VideosUnique db) (hmem : r0 ∈ db.videos) (hid : r0.video_id = v.video_id) :
    (upsert_video db v).videos.length = db.videos.length ∧
    ∀ r1 ∈ (upsert_video db v).videos, r1.video_id = v.video_id →
      r1.title = v.title ∧ r1.channel = v.channel ∧ r1.published = v.published ∧
      r1.url = v.url ∧ r1.thumbnail = v.thumbnail ∧ r1.src = v.src ∧
      r1.video_id = r0.video_id ∧ r1.created_at = r0.created_at := by
  have hany : db.videos.any (fun r => r.video_id == v.video_id) = true :=
    List.any_eq_true.mpr ⟨r0, hmem, by simp [hid]⟩
  unfold upsert_video
  rw [if_pos hany]
  refine ⟨by simp, ?_⟩
  intro r1 hr1 hrid
  obtain ⟨r, hr, hfr⟩ := List.mem_map.mp hr1
  by_cases hcase : r.video_id = v.video_id
  · have hrr0 : r = r0 := by
      by_contra hne
      have hsym : Symmetric (fun a b : VideoRow => a.video_id ≠ b.video_id) :=
        fun a b hab => hab.symm
      exact (huniq.forall hsym hr hmem hne) (hcase.trans hid.symm)
    rw [if_pos hcase] at hfr
    subst hfr
    subst hrr0
    exact ⟨rfl, rfl, rfl, rfl, rfl, rfl, rfl, rfl⟩
  · rw [if_neg hcase] at hfr
    subst hfr
    exact absurd hrid hcase

/-- Sample rows and payloads used by the concrete witness theorems. -/
def dbEmpty : DB := ⟨[], [], [], 1, 1⟩

def rowV1 : VideoRow := ⟨"v1", some "old title", none, none, none, none, some "yt", "t0"⟩

def dbV1 : DB := ⟨[rowV1], [], [], 1, 1⟩

def vNew : VideoRow := ⟨"v1", some "new title", some "chan", none, none, none, some "ingest", "t9"⟩

def vpEmpty : VideoPayload := ⟨none, none, none, none, none, none, none, none, none, none⟩

def vpV1 : VideoPayload := ⟨some "v1", none, some "T", none, none, none, none, none, none, none⟩

def rawGood : RawHit := ⟨some "senko", none, none, some "senko", none, none, none, some 80⟩

def rawNoName : RawHit := ⟨none, none, none, none, none, none, none, none⟩

/-- Witness for C7 at a concrete input: updating the sole row of a
one-row table. -/
theorem upsert_video_updates_existing_witness :
    (upsert_video dbV1 vNew).videos.length = dbV1.videos.length ∧
    ∀ r1 ∈ (upsert_video dbV1 vNew).videos, r1.video_id = vNew.video_id →
      r1.title = vNew.title ∧ r1.channel = vNew.channel ∧ r1.published = vNew.published ∧
      r1.url = vNew.url ∧ r1.thumbnail = vNew.thumbnail ∧ r1.src = vNew.src ∧
      r1.video_id = rowV1.video_id ∧ r1.created_at = rowV1.created_at :=
  upsert_video_updates_existing dbV1 vNew rowV1
    (by simp [VideosUnique, dbV1]) (by simp [dbV1]) rfl

/-- C4: an ingest call is atomic.  If it returns an error — missing/empty
video identifier, non-list `hits`, empty bait name, or an integrity
violation — the database is exactly what it was before the call; if it
succeeds, the upserted video row is present and `bait_hits` has grown by
exactly the returned inserted count. -/
theorem api_baits_ingest_atomic (db : DB) (now : String) (video : VideoPayload)
    (hits : HitsVal) :
    (∀ e, (api_baits_ingest db now video hits).2 = Except.error e →
      (api_baits_ingest db now video hits).1 = db) ∧
    (∀ vid n, (api_baits_ingest db now video hits).2 = Except.ok (vid, n) →
      (api_baits_ingest db now video hits).1.bait_hits.length = db.bait_hits.length + n ∧
      (api_baits_ingest db now video hits).1.videos.any
        (fun r => r.video_id == vid) = true) := by
  by_cases hid : stripStr ((pyOr video.video_id video.videoId).getD "") = ""
  · unfold api_baits_ingest
    rw [if_pos hid]
    exact ⟨fun e _ => rfl, fun vid n h => by cases h⟩
  · unfold api_baits_ingest
    rw [if_neg hid]
    cases htx : ingest_tx db now
        (ingest_vrow video (stripStr ((pyOr video.video_id video.videoId).getD "")) now)
        (stripStr ((pyOr video.video_id video.videoId).getD "")) hits with
    | error e =>
      exact ⟨fun e2 _ => rfl, fun vid n h => by cases h⟩
    | ok out =>
      obtain ⟨db2, n0⟩ := out
      dsimp only
      obtain ⟨hv, hl, hpresent⟩ := ingest_tx_ok db now _ _ hits db2 n0 rfl htx
      constructor
      · intro e h
        exact nomatch h
      · intro vid n h
        rw [Except.ok.injEq, Prod.mk.injEq] at h
        obtain ⟨hvid, hn⟩ := h
        subst hvid
        subst hn
        exact ⟨hl, hpresent⟩

/-- Witness for C4 at a concrete input: a payload with no video
identifier fails and leaves the (empty) database unchanged. -/
theorem api_baits_ingest_atomic_witness :
    (api_baits_ingest dbEmpty "t1" vpEmpty (HitsVal.isList [rawGood])).1 = dbEmpty :=
  (api_baits_ingest_atomic dbEmpty "t1" vpEmpty (HitsVal.isList [rawGood])).1
    "payload.video.video_id is required" rfl

/-- Elimination form of a successful ingest call: the returned identifier
is the stripped payload identifier, it is non-empty, the hits value was an
actual list, and the resulting state is the one produced by the upsert
followed by the hit inserts. -/
theorem api_ingest_ok_elim (db : DB) (now : String) (video : VideoPayload) (hits : HitsVal)
    (vid : String) (n : Nat)
    (h : (api_baits_ingest db now video hits).2 = Except.ok (vid, n)) :
    stripStr ((pyOr video.video_id video.videoId).getD "") = vid ∧ vid ≠ "" ∧
    ∃ hs, hits = HitsVal.isList hs ∧
      insert_bait_hits (upsert_video db (ingest_vrow video vid now)) now vid hs =
        Except.ok ((api_baits_ingest db now video hits).1, n) := by
  by_cases hid : stripStr ((pyOr video.video_id video.videoId).getD "") = ""
  · unfold api_baits_ingest at h
    rw [if_pos hid] at h
    exact nomatch h
  · unfold api_baits_ingest at h ⊢
    rw [if_neg hid] at h ⊢
    cases htx : ingest_tx db now
        (ingest_vrow video (stripStr ((pyOr video.video_id video.videoId).getD "")) now)
        (stripStr ((pyOr video.video_id video.videoId).getD "")) hits with
    | error e =>
      rw [htx] at h
      exact nomatch h
    | ok out =>
      obtain ⟨db2, n0⟩ := out
      rw [htx] at h
      dsimp only at h ⊢
      rw [Except.ok.injEq, Prod.mk.injEq] at h
      obtain ⟨hvid, hn⟩ := h
      subst hvid
      subst hn
      refine ⟨rfl, hid, ?_⟩
      cases hits with
      | notList =>
        simp only [ingest_tx] at htx
        exact nomatch htx
      | isList hs =>
        refine ⟨hs, rfl, ?_⟩
        simpa [ingest_tx] using htx

/-- Introduction form of a successful ingest call: a successful insert run
after the upsert yields the committed state and count. -/
theorem api_ingest_ok_intro (db db2 : DB) (now : String) (video : VideoPayload)
    (hs : List RawHit) (vid : String) (n : Nat)
    (hvid : stripStr ((pyOr video.video_id video.videoId).getD "") = vid)
    (hne : vid ≠ "")
    (hins : insert_bait_hits (upsert_video db (ingest_vrow video vid now)) now vid hs =
      Except.ok (db2, n)) :
    api_baits_ingest db now video (HitsVal.isList hs) = (db2, Except.ok (vid, n)) := by
  unfold api_baits_ingest
  rw [hvid, if_neg hne]
  have htx : ingest_tx db now (ingest_vrow video vid now) vid (HitsVal.isList hs) =
      Except.ok (db2, n) := by
    simpa [ingest_tx] using hins
  rw [htx]

/-- C8: ingesting the same valid `(video, hits)` payload twice yields a
second success with the same identifier and count, exactly one video row
for that identifier afterwards, and exactly double the `bait_hits` growth
of a single ingest — hit inserts are append-only and never deduplicated. -/
theorem ingest_twice_append_only (db : DB) (now1 now2 : String) (video : VideoPayload)
    (hits : HitsVal) (vid : String) (n : Nat)
    (huniq : VideosUnique db)
    (h1 : (api_baits_ingest db now1 video hits).2 = Except.ok (vid, n)) :
    (api_baits_ingest (api_baits_ingest db now1 video hits).1 now2 video hits).2 =
      Except.ok (vid, n) ∧
    ((api_baits_ingest (api_baits_ingest db now1 video hits).1 now2 video hits).1.videos.countP
      (fun r => r.video_id == vid)) = 1 ∧
    (api_baits_ingest (api_baits_ingest db now1 video hits).1 now2 video
      hits).1.bait_hits.length = db.bait_hits.length + 2 * n := by
  obtain ⟨hv0, hne, hs, hhits, hins1⟩ := api_ingest_ok_elim db now1 video hits vid n h1
  subst hhits
  obtain ⟨hv1, hl1, hn1, hnames⟩ := insert_aux_ok_props now1 vid hs _ 0 _ n hins1
  have hany2 : (upsert_video (api_baits_ingest db now1 video (HitsVal.isList hs)).1
      (ingest_vrow video vid now2)).videos.any (fun r => r.video_id == vid) = true :=
    upsert_video_has_id _ (ingest_vrow video vid now2)
  obtain ⟨db4, n2, hins2⟩ := insert_aux_ok_of now2 vid hs
    (upsert_video (api_baits_ingest db now1 video (HitsVal.isList hs)).1
      (ingest_vrow video vid now2)) 0 hnames hany2
  obtain ⟨hv4, hl4, hn4, _⟩ := insert_aux_ok_props now2 vid hs _ 0 _ _ hins2
  have hn2n : n2 = n := by
    rw [hn4, hn1]
  have hapi2 : api_baits_ingest (api_baits_ingest db now1 video (HitsVal.isList hs)).1
      now2 video (HitsVal.isList hs) = (db4, Except.ok (vid, n2)) :=
    api_ingest_ok_intro _ db4 now2 video hs vid n2 hv0 hne hins2
  have huniq2 : ((api_baits_ingest db now1 video (HitsVal.isList hs)).1).videos.Pairwise
      (fun a b => a.video_id ≠ b.video_id) := by
    rw [hv1]
    exact upsert_video_unique db (ingest_vrow video vid now1) huniq
  have huniq4 : db4.videos.Pairwise (fun a b => a.video_id ≠ b.video_id) := by
    rw [hv4]
    exact upsert_video_unique _ (ingest_vrow video vid now2) huniq2
  have hanyd4 : db4.videos.any (fun r => r.video_id == vid) = true := by
    rw [hv4]
    exact hany2
  refine ⟨?_, ?_, ?_⟩
  · rw [hapi2, hn2n]
  · rw [hapi2]
    exact countP_eq_one_of_unique vid db4.videos huniq4 hanyd4
  · rw [hapi2]
    obtain ⟨_, hbh1, _, _⟩ := upsert_video_same_tables db (ingest_vrow video vid now1)
    obtain ⟨_, hbh2, _, _⟩ :=
      upsert_video_same_tables (api_baits_ingest db now1 video (HitsVal.isList hs)).1
        (ingest_vrow video vid now2)
    rw [hl4, hbh2, hl1, hbh1] at *
    omega

/-- Witness for C8 at a concrete input: ingesting one hit for video
`"v1"` twice gives one video row and two hit rows. -/
theorem ingest_twice_append_only_witness :
    (api_baits_ingest (api_baits_ingest dbEmpty "t1" vpV1 (HitsVal.isList [rawGood])).1
      "t2" vpV1 (HitsVal.isList [rawGood])).2 = Except.ok ("v1", 1) ∧
    ((api_baits_ingest (api_baits_ingest dbEmpty "t1" vpV1 (HitsVal.isList [rawGood])).1
      "t2" vpV1 (HitsVal.isList [rawGood])).1.videos.countP
        (fun r => r.video_id == "v1")) = 1 ∧
    (api_baits_ingest (api_baits_ingest dbEmpty "t1" vpV1 (HitsVal.isList [rawGood])).1
      "t2" vpV1 (HitsVal.isList [rawGood])).1.bait_hits.length =
      dbEmpty.bait_hits.length + 2 * 1 :=
  ingest_twice_append_only dbEmpty "t1" "t2" vpV1 (HitsVal.isList [rawGood]) "v1" 1
    (by simp [VideosUnique, dbEmpty]) rfl

/-- Helper for the amended C5: a hit with an empty effective bait name
anywhere in the list makes the whole insert run fail with an error. -/
theorem insert_aux_error_of_bad_name (now vid : String) (hits : List RawHit) :
    ∀ (db : DB) (count : Nat) (h : RawHit), h ∈ hits → effName h = "" →
      ∃ e, insert_bait_hits_aux now vid db count hits = Except.error e := by
  induction hits with
  | nil =>
    intro db count h hm
    simp at hm
  | cons hd rest ih =>
    intro db count h hm hname
    cases hE : ensure_bait db now (pyOr hd.bait_name hd.name) hd.category with
    | error e => exact ⟨e, by simp [insert_bait_hits_aux, hE]⟩
    | ok out =>
      obtain ⟨dbE, bid⟩ := out
      rcases List.mem_cons.mp hm with rfl | hm2
      · exact absurd hname (ensure_bait_ok_name _ _ _ _ _ hE)
      · by_cases hvid : dbE.videos.any (fun r => r.video_id == vid) = true
        · by_cases hb : dbE.baits.any (fun b => b.bait_id == bid) = true
          · obtain ⟨e, he⟩ := ih
              { dbE with
                  bait_hits := dbE.bait_hits ++
                    [⟨dbE.next_hit_id, vid, bid, hd.bait_text, hd.snippet,
                      hd.t_start, hd.t_end, hd.confidence.getD 70, now⟩]
                  next_hit_id := dbE.next_hit_id + 1 }
              (count + 1) h hm2 hname
            refine ⟨e, ?_⟩
            simp only [insert_bait_hits_aux, hE]
            rw [if_pos hvid, if_pos hb]
            exact he
          · refine ⟨"FOREIGN KEY constraint failed", ?_⟩
            simp only [insert_bait_hits_aux, hE]
            rw [if_pos hvid, if_neg hb]
        · refine ⟨"FOREIGN KEY constraint failed", ?_⟩
          simp only [insert_bait_hits_aux, hE]
          rw [if_neg hvid]

/-- C5 counterexample: on a database whose `videos` table contains
`"v1"`, `insert_bait_hits` over a list holding one record with no bait
name and one well-formed record raises `ValueError("bait name is empty")`
instead of skipping the bad record; the remaining hit is not inserted and
no count is returned (the claimed behaviour would yield `ok (_, 1)`). -/
theorem insert_bait_hits_missing_name_counterexample :
    insert_bait_hits dbV1 "t1" "v1" [rawNoName, rawGood] =
      Except.error "bait name is empty" := rfl

/-- C5 (amended): a raw hit whose effective bait name is missing or
empty/whitespace-only after trimming makes `ensure_bait` raise
`ValueError`, a hard failure that aborts the whole `insert_bait_hits`
call — no remaining hit is inserted and no count is returned. -/
theorem insert_bait_hits_missing_name_errors (db : DB) (now vid : String)
    (hits : List RawHit) (h : RawHit) (hm : h ∈ hits) (hname : effName h = "") :
    ∃ e, insert_bait_hits db now vid hits = Except.error e :=
  insert_aux_error_of_bad_name now vid hits db 0 h hm hname

/-- Witness for the amended C5 at a concrete input. -/
theorem insert_bait_hits_missing_name_errors_witness :
    ∃ e, insert_bait_hits dbV1 "t1" "v1" [rawNoName, rawGood] = Except.error e :=
  insert_bait_hits_missing_name_errors dbV1 "t1" "v1" [rawNoName, rawGood]
    rawNoName (by simp) rfl

/-- C6 counterexample: resolving a new bait with the unknown category
slug `"mystery_slug"` stores that slug verbatim on the created row — it
is not coerced to `"other"` or `"unclassified"` (the current `ensure_bait`
performs no taxonomy validation at all). -/
theorem ensure_bait_unknown_category_counterexample :
    ensure_bait dbEmpty "t0" (some "senko") (some "mystery_slug") =
      Except.ok ({ videos := [], baits := [⟨1, "senko", some "mystery_slug", "t0"⟩],
                   bait_hits := [], next_bait_id := 2, next_hit_id := 1 }, 1) ∧
    (some "mystery_slug" : Option String) ≠ some "other" ∧
    (some "mystery_slug" : Option String) ≠ some "unclassified" :=
  ⟨rfl, by decide, by decide⟩

/-- C6 (amended): when `ensure_bait` creates a bait record, the supplied
category slug is stored verbatim, with no taxonomy validation and no
fallback coercion (the `"other"` fallback exists only in the legacy
`backend__OLD_DO_NOT_USE` module, which is dead code). -/
theorem ensure_bait_stores_category_verbatim (db : DB) (now s : String) (cat : Option String)
    (hne : stripStr s ≠ "") (hnf : db.baits.find? (fun b => b.name == stripStr s) = none) :
    ensure_bait db now (some s) cat =
      Except.ok ({ db with
          baits := db.baits ++ [⟨db.next_bait_id, stripStr s, cat, now⟩]
          next_bait_id := db.next_bait_id + 1 }, db.next_bait_id) := by
  unfold ensure_bait
  simp only [Option.getD_some]
  rw [if_neg hne, hnf]

/-- Witness for the amended C6 at a concrete input. -/
theorem ensure_bait_stores_category_verbatim_witness :
    ensure_bait dbEmpty "t0" (some "senko") (some "mystery2") =
      Except.ok ({ dbEmpty with
          baits := dbEmpty.baits ++
            [⟨dbEmpty.next_bait_id, stripStr "senko", some "mystery2", "t0"⟩]
          next_bait_id := dbEmpty.next_bait_id + 1 }, dbEmpty.next_bait_id) :=
  ensure_bait_stores_category_verbatim dbEmpty "t0" "senko" (some "mystery2")
    (by decide) rfl
